import Mathlib

/-!
# Verification of the purewin disk-usage analyzer

This development gives a shallow embedding of the disk-usage analyzer of the
`purewin` repository: the bounded-concurrency directory scanner with exclusion
patterns and cancellation, the scan cache keyed by canonical root paths, the
squarified treemap layout, and the `analyze` command driver
(`cmd/analyze.go`).  The scanner, cache, treemap and explorer live in the
`internal/analyze` package, whose source is not part of the snapshot under
verification; those components are modelled from the specification, as marked
in the doc comment of each such definition.  The `analyze` command driver is
translated directly from `cmd/analyze.go`.
-/

namespace Purewin

/-- Kind of a node in a scan result: file, directory, or inaccessible entry
(spec §3, `Node.kind`). -/
inductive Kind where
  | file
  | dir
  | inaccessible
deriving Repr, DecidableEq

/-- Modelled from the spec: a `Node` of a scan result (spec §3) — absolute
path, display name, kind, aggregate size in bytes, ordered children, and
whether the directory was skipped because it matched an exclusion pattern
(excluded directories "are still listed as excluded for display", spec §4.2). -/
inductive Node where
  | mk (path : String) (name : String) (kind : Kind) (size : Nat)
      (children : List Node) (excluded : Bool)

def Node.path : Node → String
  | .mk p _ _ _ _ _ => p

def Node.name : Node → String
  | .mk _ n _ _ _ _ => n

def Node.kind : Node → Kind
  | .mk _ _ k _ _ _ => k

def Node.size : Node → Nat
  | .mk _ _ _ s _ _ => s

def Node.children : Node → List Node
  | .mk _ _ _ _ cs _ => cs

def Node.excluded : Node → Bool
  | .mk _ _ _ _ _ e => e

/-- Model of the live filesystem the scanner walks: a file with its byte
size, a directory with its ordered immediate children, or an entry that
cannot be opened (permission denied, broken reparse point).  Symlinks are
never traversed (spec §4.1), so a static tree is a faithful model of what one
scan can observe. -/
inductive FsEntry where
  | file (name : String) (size : Nat)
  | dir (name : String) (children : List FsEntry)
  | inaccessible (name : String)

def FsEntry.name : FsEntry → String
  | .file n _ => n
  | .dir n _ => n
  | .inaccessible n => n

/-- Strong induction for `FsEntry` giving the hypothesis on every member of a
directory's child list. -/
theorem FsEntry.memInd {P : FsEntry → Prop}
    (hfile : ∀ n s, P (FsEntry.file n s))
    (hinacc : ∀ n, P (FsEntry.inaccessible n))
    (hdir : ∀ n cs, (∀ c ∈ cs, P c) → P (FsEntry.dir n cs)) : ∀ e, P e
  | .file n s => hfile n s
  | .inaccessible n => hinacc n
  | .dir n cs => hdir n cs (fun c hc =>
      have : sizeOf c < sizeOf (FsEntry.dir n cs) := by
        have h1 := List.sizeOf_lt_of_mem hc
        simp only [FsEntry.dir.sizeOf_spec]
        omega
      FsEntry.memInd hfile hinacc hdir c)
termination_by e => sizeOf e

/-- Fuel-driven glob matcher: `*` matches any sequence, `?` any single
character, other characters literally.  The fuel is bounded below by
`pat.length + str.length + 1`, which every recursive call preserves. -/
def globMatchF : Nat → List Char → List Char → Bool
  | 0, _, _ => false
  | _ + 1, [], str => str.isEmpty
  | fuel + 1, p :: ps, str =>
    if p = '*' then
      globMatchF fuel ps str ||
        (match str with
          | [] => false
          | _ :: ct => globMatchF fuel (p :: ps) ct)
    else
      match str with
      | [] => false
      | c :: ct => (p = '?' || p = c) && globMatchF fuel ps ct

/-- Modelled from the spec: glob-style exclusion pattern matching
(spec §6: "an exclusion list (ordered sequence of glob-style patterns matched
against absolute paths)"). -/
def globMatch (pat str : String) : Bool :=
  globMatchF (pat.data.length + str.data.length + 1) pat.data str.data

/-- A path matches the exclusion list when any pattern matches it. -/
def matchesAny (pats : List String) (path : String) : Bool :=
  pats.any (fun p => globMatch p path)

/-- Path of a child entry under a parent directory (Windows separator). -/
def joinPath (parent name : String) : String :=
  parent ++ "\\" ++ name

/-- Sum of the sizes of a list of result nodes. -/
def sumSizes (l : List Node) : Nat :=
  (l.map Node.size).sum

mutual
/-- Modelled from the spec: the completed (never-cancelled) scan of one
filesystem entry at a given absolute path (spec §4.2).  A directory matching
an exclusion pattern is skipped entirely: not descended, size 0, listed as
excluded.  Otherwise a directory's size is the sum of its children's sizes,
computed bottom-up; an inaccessible entry is a zero-size leaf. -/
def scanAt (pats : List String) (path : String) : FsEntry → Node
  | .file n s => .mk path n .file s [] false
  | .inaccessible n => .mk path n .inaccessible 0 [] false
  | .dir n cs =>
    if matchesAny pats path then .mk path n .dir 0 [] true
    else
      let kids := scanKids pats path cs
      .mk path n .dir (sumSizes kids) kids false

/-- Scan the ordered children of a directory at `parent`. -/
def scanKids (pats : List String) (parent : String) : List FsEntry → List Node
  | [] => []
  | c :: cs => scanAt pats (joinPath parent c.name) c :: scanKids pats parent cs
end

mutual
/-- Aggregate-consistency check (spec §3 invariant): every directory node's
size equals the sum of its children's sizes, recursively. -/
def aggOk : Node → Bool
  | .mk _ _ k s cs _ =>
    (if k = Kind.dir then s == sumSizes cs else true) && aggOkList cs

def aggOkList : List Node → Bool
  | [] => true
  | c :: cs => aggOk c && aggOkList cs
end

mutual
/-- Every node of a result tree: the node itself and all descendants. -/
def allNodes : Node → List Node
  | .mk p n k s cs e => .mk p n k s cs e :: allNodesList cs

def allNodesList : List Node → List Node
  | [] => []
  | c :: cs => allNodes c ++ allNodesList cs
end

theorem aggOkList_eq_all (cs : List Node) :
    aggOkList cs = cs.all aggOk := by
  induction cs with
  | nil => rfl
  | cons c cs ih => simp [aggOkList, ih]

theorem scanAt_aggOk (pats : List String) (e : FsEntry) :
    ∀ path, aggOk (scanAt pats path e) = true := by
  induction e using FsEntry.memInd with
  | hfile n s => intro path; simp [scanAt, aggOk, aggOkList]
  | hinacc n => intro path; simp [scanAt, aggOk, aggOkList]
  | hdir n cs ih =>
    intro path
    by_cases hm : matchesAny pats path = true
    · simp [scanAt, hm, aggOk, aggOkList, sumSizes]
    · simp only [scanAt, hm, Bool.false_eq_true, if_false]
      have hall : ∀ cs' : List FsEntry, (∀ c ∈ cs', ∀ p, aggOk (scanAt pats p c) = true) →
          ∀ nd ∈ scanKids pats path cs', aggOk nd = true := by
        intro cs'
        induction cs' with
        | nil => intro _ nd hnd; simp [scanKids] at hnd
        | cons c cs' ihl =>
          intro hall nd hnd
          simp only [scanKids, List.mem_cons] at hnd
          rcases hnd with h | h
          · subst h; exact hall c (by simp) _
          · exact ihl (fun c hc p => hall c (by simp [hc]) p) nd h
      simp [aggOk, ← aggOkList_eq_all, aggOkList_eq_all, List.all_eq_true]
      exact fun nd hnd => hall cs ih nd hnd

/-- Result of a cancellable scan of one entry: the node built, the progress
counter after the subtree, whether any work was skipped because the
cancellation signal was observed, and the sizes of the files actually
visited in the subtree. -/
structure CanRes where
  node : Node
  count : Nat
  skipped : Bool
  visited : List Nat

/-- Result of a cancellable scan of a child list. -/
structure CanListRes where
  nodes : List Node
  count : Nat
  skipped : Bool
  visited : List Nat

mutual
/-- Modelled from the spec: the cancellable scan (spec §4.2, §5).  A
process-wide counter is incremented once per filesystem entry visited; the
cancellation signal fires once the counter reaches `limit` and is checked
before each new subdirectory task is spawned — once up, no new child tasks
start, and the directory keeps the best-effort sizes computed so far. -/
def scanCanAt (pats : List String) (limit : Nat) (path : String) :
    FsEntry → Nat → CanRes
  | .file n s, cnt => ⟨.mk path n .file s [] false, cnt + 1, false, [s]⟩
  | .inaccessible n, cnt => ⟨.mk path n .inaccessible 0 [] false, cnt + 1, false, []⟩
  | .dir n cs, cnt =>
    if matchesAny pats path then ⟨.mk path n .dir 0 [] true, cnt + 1, false, []⟩
    else
      let r := scanCanList pats limit path cs (cnt + 1)
      ⟨.mk path n .dir (sumSizes r.nodes) r.nodes false, r.count, r.skipped, r.visited⟩

/-- Cancellable scan of the ordered children of a directory: the signal is
checked before each child task; remaining children are skipped once it is up. -/
def scanCanList (pats : List String) (limit : Nat) (parent : String) :
    List FsEntry → Nat → CanListRes
  | [], cnt => ⟨[], cnt, false, []⟩
  | c :: cs, cnt =>
    if limit ≤ cnt then ⟨[], cnt, true, []⟩
    else
      let r1 := scanCanAt pats limit (joinPath parent c.name) c cnt
      let r2 := scanCanList pats limit parent cs r1.count
      ⟨r1.node :: r2.nodes, r2.count, r1.skipped || r2.skipped, r1.visited ++ r2.visited⟩
end

/-- Modelled from the spec: a `ScanResult` (spec §3) — a completed or
partially-completed node tree plus metadata: the root path and a flag for
whether the scan was cancelled before completion (marked incomplete). -/
structure ScanResult where
  root : String
  tree : Node
  cancelled : Bool

/-- Modelled from the spec: running the cancellable scan from the root.  The
aggregator marks the result incomplete exactly when the cancellation signal
was raised during the scan, i.e. when the progress counter reached `limit`.
Cancellation is not an error: the function is total and always yields a
`ScanResult` (paired here with the list of visited file sizes, which the
proofs below compare sizes against). -/
def scanCancellable (pats : List String) (limit : Nat) (root : String)
    (e : FsEntry) : ScanResult × List Nat :=
  let r := scanCanAt pats limit root e 0
  (⟨root, r.node, decide (limit ≤ r.count)⟩, r.visited)

theorem scanCanList_mono_of (pats : List String) (limit : Nat) (parent : String)
    (cs : List FsEntry)
    (h : ∀ c ∈ cs, ∀ path cnt, cnt ≤ (scanCanAt pats limit path c cnt).count) :
    ∀ cnt, cnt ≤ (scanCanList pats limit parent cs cnt).count := by
  induction cs with
  | nil => intro cnt; simp [scanCanList]
  | cons c cs ih =>
    intro cnt
    by_cases hl : limit ≤ cnt
    · simp [scanCanList, hl]
    · simp only [scanCanList, hl, if_false]
      exact le_trans (h c (by simp) _ cnt)
        (ih (fun c hc path cnt => h c (by simp [hc]) path cnt) _)

theorem scanCanAt_mono (pats : List String) (limit : Nat) (e : FsEntry) :
    ∀ path cnt, cnt ≤ (scanCanAt pats limit path e cnt).count := by
  induction e using FsEntry.memInd with
  | hfile n s => intro path cnt; simp [scanCanAt]
  | hinacc n => intro path cnt; simp [scanCanAt]
  | hdir n cs ih =>
    intro path cnt
    by_cases hm : matchesAny pats path = true
    · simp [scanCanAt, hm]
    · simp only [scanCanAt, hm, Bool.false_eq_true, if_false]
      exact le_trans (Nat.le_succ cnt) (scanCanList_mono_of pats limit path cs ih _)

theorem scanCanList_mono (pats : List String) (limit : Nat) (parent : String)
    (cs : List FsEntry) (cnt : Nat) :
    cnt ≤ (scanCanList pats limit parent cs cnt).count :=
  scanCanList_mono_of pats limit parent cs
    (fun c _ path cnt => scanCanAt_mono pats limit c path cnt) cnt

theorem scanCanList_skip_of (pats : List String) (limit : Nat) (parent : String)
    (cs : List FsEntry)
    (h : ∀ c ∈ cs, ∀ path cnt, (scanCanAt pats limit path c cnt).skipped = true →
        limit ≤ (scanCanAt pats limit path c cnt).count) :
    ∀ cnt, (scanCanList pats limit parent cs cnt).skipped = true →
      limit ≤ (scanCanList pats limit parent cs cnt).count := by
  induction cs with
  | nil => intro cnt hs; simp [scanCanList] at hs
  | cons c cs ih =>
    intro cnt hs
    by_cases hl : limit ≤ cnt
    · simp [scanCanList, hl]
    · simp only [scanCanList, hl, if_false] at hs ⊢
      rcases Bool.or_eq_true_iff.mp hs with h1 | h2
      · exact le_trans (h c (by simp) _ cnt h1)
          (scanCanList_mono pats limit parent cs _)
      · exact ih (fun c hc path cnt => h c (by simp [hc]) path cnt) _ h2

theorem scanCanAt_skip (pats : List String) (limit : Nat) (e : FsEntry) :
    ∀ path cnt, (scanCanAt pats limit path e cnt).skipped = true →
      limit ≤ (scanCanAt pats limit path e cnt).count := by
  induction e using FsEntry.memInd with
  | hfile n s => intro path cnt hs; simp [scanCanAt] at hs
  | hinacc n => intro path cnt hs; simp [scanCanAt] at hs
  | hdir n cs ih =>
    intro path cnt hs
    by_cases hm : matchesAny pats path = true
    · simp [scanCanAt, hm] at hs
    · simp only [scanCanAt, hm, Bool.false_eq_true, if_false] at hs ⊢
      exact scanCanList_skip_of pats limit path cs ih _ hs

theorem scanCanList_size_of (pats : List String) (limit : Nat) (parent : String)
    (cs : List FsEntry)
    (h : ∀ c ∈ cs, ∀ path cnt, (scanCanAt pats limit path c cnt).node.size =
        ((scanCanAt pats limit path c cnt).visited).sum) :
    ∀ cnt, sumSizes (scanCanList pats limit parent cs cnt).nodes =
      ((scanCanList pats limit parent cs cnt).visited).sum := by
  induction cs with
  | nil => intro cnt; simp [scanCanList, sumSizes]
  | cons c cs ih =>
    intro cnt
    by_cases hl : limit ≤ cnt
    · simp [scanCanList, hl, sumSizes]
    · simp only [scanCanList, hl, if_false]
      have h1 := h c (by simp) (joinPath parent c.name) cnt
      have h2 := ih (fun c hc path cnt => h c (by simp [hc]) path cnt)
        (scanCanAt pats limit (joinPath parent c.name) c cnt).count
      simp only [sumSizes, List.map_cons, List.sum_cons, List.sum_append] at *
      omega

theorem scanCanAt_size (pats : List String) (limit : Nat) (e : FsEntry) :
    ∀ path cnt, (scanCanAt pats limit path e cnt).node.size =
      ((scanCanAt pats limit path e cnt).visited).sum := by
  induction e using FsEntry.memInd with
  | hfile n s => intro path cnt; simp [scanCanAt, Node.size]
  | hinacc n => intro path cnt; simp [scanCanAt, Node.size]
  | hdir n cs ih =>
    intro path cnt
    by_cases hm : matchesAny pats path = true
    · simp [scanCanAt, hm, Node.size]
    · simp only [scanCanAt, hm, Bool.false_eq_true, if_false]
      exact scanCanList_size_of pats limit path cs ih _

theorem scanCanList_nodes_le_of (pats : List String) (limit : Nat) (parent : String)
    (cs : List FsEntry)
    (h : ∀ c ∈ cs, ∀ path cnt, ∀ nd ∈ allNodes (scanCanAt pats limit path c cnt).node,
        nd.size ≤ ((scanCanAt pats limit path c cnt).visited).sum) :
    ∀ cnt, ∀ nd ∈ allNodesList (scanCanList pats limit parent cs cnt).nodes,
      nd.size ≤ ((scanCanList pats limit parent cs cnt).visited).sum := by
  induction cs with
  | nil => intro cnt nd hnd; simp [scanCanList, allNodesList] at hnd
  | cons c cs ih =>
    intro cnt nd hnd
    by_cases hl : limit ≤ cnt
    · simp [scanCanList, hl, allNodesList] at hnd
    · simp only [scanCanList, hl, if_false] at hnd ⊢
      simp only [allNodesList, List.mem_append] at hnd
      simp only [List.sum_append]
      rcases hnd with h1 | h2
      · exact le_trans (h c (by simp) _ cnt nd h1) (Nat.le_add_right _ _)
      · exact le_trans
          (ih (fun c hc path cnt => h c (by simp [hc]) path cnt) _ nd h2)
          (Nat.le_add_left _ _)

theorem scanCanAt_nodes_le (pats : List String) (limit : Nat) (e : FsEntry) :
    ∀ path cnt, ∀ nd ∈ allNodes (scanCanAt pats limit path e cnt).node,
      nd.size ≤ ((scanCanAt pats limit path e cnt).visited).sum := by
  induction e using FsEntry.memInd with
  | hfile n s =>
    intro path cnt nd hnd
    simp [scanCanAt, allNodes, allNodesList] at hnd
    simp [hnd, Node.size, scanCanAt]
  | hinacc n =>
    intro path cnt nd hnd
    simp [scanCanAt, allNodes, allNodesList] at hnd
    simp [hnd, Node.size, scanCanAt]
  | hdir n cs ih =>
    intro path cnt nd hnd
    by_cases hm : matchesAny pats path = true
    · simp [scanCanAt, hm, allNodes, allNodesList] at hnd
      simp [hnd, Node.size, scanCanAt, hm]
    · simp only [scanCanAt, hm, Bool.false_eq_true, if_false] at hnd ⊢
      simp only [allNodes, List.mem_cons] at hnd
      rcases hnd with h1 | h2
      · subst h1
        have := scanCanList_size_of pats limit path cs
          (fun c hc path cnt => scanCanAt_size pats limit c path cnt) (cnt + 1)
        simp [Node.size, this]
      · exact scanCanList_nodes_le_of pats limit path cs ih _ nd h2

theorem scanCanList_complete_of (pats : List String) (limit : Nat) (parent : String)
    (cs : List FsEntry)
    (h : ∀ c ∈ cs, ∀ path cnt, (scanCanAt pats limit path c cnt).skipped = false →
        (scanCanAt pats limit path c cnt).node = scanAt pats path c) :
    ∀ cnt, (scanCanList pats limit parent cs cnt).skipped = false →
      (scanCanList pats limit parent cs cnt).nodes = scanKids pats parent cs := by
  induction cs with
  | nil => intro cnt _; simp [scanCanList, scanKids]
  | cons c cs ih =>
    intro cnt hs
    by_cases hl : limit ≤ cnt
    · simp [scanCanList, hl] at hs
    · simp only [scanCanList, hl, if_false] at hs ⊢
      simp only [Bool.or_eq_false_iff] at hs
      simp only [scanKids]
      rw [h c (by simp) _ cnt hs.1,
        ih (fun c hc path cnt => h c (by simp [hc]) path cnt) _ hs.2]

theorem scanCanAt_complete (pats : List String) (limit : Nat) (e : FsEntry) :
    ∀ path cnt, (scanCanAt pats limit path e cnt).skipped = false →
      (scanCanAt pats limit path e cnt).node = scanAt pats path e := by
  induction e using FsEntry.memInd with
  | hfile n s => intro path cnt _; simp [scanCanAt, scanAt]
  | hinacc n => intro path cnt _; simp [scanCanAt, scanAt]
  | hdir n cs ih =>
    intro path cnt hs
    by_cases hm : matchesAny pats path = true
    · simp [scanCanAt, scanAt, hm]
    · simp only [scanCanAt, scanAt, hm, Bool.false_eq_true, if_false] at hs ⊢
      rw [scanCanList_complete_of pats limit path cs ih _ hs]

/-- A small concrete filesystem used to instantiate the theorems below. -/
def sampleFs : FsEntry :=
  .dir "data" [.file "a.txt" 3, .dir "sub" [.file "b.bin" 5], .inaccessible "locked"]

/-- C1: for every completed (non-cancelled) scan, every directory node's size
equals the sum of its children's sizes, recursively down to the leaves.  The
complete scan `scanAt` always satisfies the aggregate-consistency check, and
any run of the cancellable scanner whose result is not marked incomplete
produces that same tree, so it satisfies the check as well; partial subtrees
can only arise in results that are marked incomplete. -/
theorem C1_aggregate_consistency (pats : List String) (limit : Nat)
    (root : String) (e : FsEntry)
    (hc : (scanCancellable pats limit root e).1.cancelled = false) :
    aggOk (scanAt pats root e) = true ∧
      aggOk (scanCancellable pats limit root e).1.tree = true := by
  refine ⟨scanAt_aggOk pats e root, ?_⟩
  simp only [scanCancellable, decide_eq_false_iff_not] at hc
  have hskip : (scanCanAt pats limit root e 0).skipped = false := by
    by_contra hs
    rw [Bool.not_eq_false] at hs
    exact hc (scanCanAt_skip pats limit e root 0 hs)
  simp only [scanCancellable]
  rw [scanCanAt_complete pats limit e root 0 hskip]
  exact scanAt_aggOk pats e root

theorem C1_aggregate_consistency_witness :
    (scanCancellable [] 100 "C:\\data" sampleFs).1.cancelled = false ∧
      (aggOk (scanAt [] "C:\\data" sampleFs) = true ∧
        aggOk (scanCancellable [] 100 "C:\\data" sampleFs).1.tree = true) :=
  ⟨by decide, C1_aggregate_consistency [] 100 "C:\\data" sampleFs (by decide)⟩

/-- C6: cancelling a scan mid-flight (the signal fired and at least one
pending task was skipped) always yields a `ScanResult` marked incomplete —
the scan function is total, so no error is possible — and no node of the
returned tree reports a size larger than the sum of the sizes of the files
actually visited before cancellation. -/
theorem C6_cancellation (pats : List String) (limit : Nat) (root : String)
    (e : FsEntry)
    (hmid : (scanCanAt pats limit root e 0).skipped = true) :
    (scanCancellable pats limit root e).1.cancelled = true ∧
      ∀ nd ∈ allNodes (scanCancellable pats limit root e).1.tree,
        nd.size ≤ ((scanCancellable pats limit root e).2).sum := by
  constructor
  · simp only [scanCancellable, decide_eq_true_eq]
    exact scanCanAt_skip pats limit e root 0 hmid
  · intro nd hnd
    simp only [scanCancellable] at hnd ⊢
    exact scanCanAt_nodes_le pats limit e root 0 nd hnd

theorem C6_cancellation_witness :
    (scanCanAt [] 2 "C:\\data" sampleFs 0).skipped = true ∧
      ((scanCancellable [] 2 "C:\\data" sampleFs).1.cancelled = true ∧
        ∀ nd ∈ allNodes (scanCancellable [] 2 "C:\\data" sampleFs).1.tree,
          nd.size ≤ ((scanCancellable [] 2 "C:\\data" sampleFs).2).sum) :=
  ⟨by decide, C6_cancellation [] 2 "C:\\data" sampleFs (by decide)⟩

theorem self_mem_allNodes (nd : Node) : nd ∈ allNodes nd := by
  cases nd with
  | mk p n k s cs e => simp [allNodes]

theorem mem_allNodesList_scanKids (pats : List String) (parent : String)
    (cs : List FsEntry) (nd : Node)
    (hnd : nd ∈ allNodesList (scanKids pats parent cs)) :
    ∃ c ∈ cs, nd ∈ allNodes (scanAt pats (joinPath parent c.name) c) := by
  induction cs with
  | nil => simp [scanKids, allNodesList] at hnd
  | cons c cs ih =>
    simp only [scanKids, allNodesList, List.mem_append] at hnd
    rcases hnd with h | h
    · exact ⟨c, by simp, h⟩
    · obtain ⟨c', hc', hmem⟩ := ih h
      exact ⟨c', by simp [hc'], hmem⟩

/-- C5: a directory matching an exclusion pattern is never descended into: in
the output tree it is listed as excluded, has size 0 (so it contributes 0 to
its parent's aggregate, which by the last conjunct is the sum of its
children's sizes), and never appears with populated children. -/
theorem C5_exclusion (pats : List String) (root : String) (e : FsEntry)
    (nd : Node) (hnd : nd ∈ allNodes (scanAt pats root e))
    (hdir : nd.kind = Kind.dir) (hm : matchesAny pats nd.path = true) :
    nd.excluded = true ∧ nd.size = 0 ∧ nd.children = [] ∧
      aggOk (scanAt pats root e) = true := by
  refine ?_
  have main : ∀ e' : FsEntry, ∀ path, ∀ nd' ∈ allNodes (scanAt pats path e'),
      nd'.kind = Kind.dir → matchesAny pats nd'.path = true →
      nd'.excluded = true ∧ nd'.size = 0 ∧ nd'.children = [] := by
    intro e'
    induction e' using FsEntry.memInd with
    | hfile n s =>
      intro path nd' hnd' hk _
      simp [scanAt, allNodes, allNodesList] at hnd'
      subst hnd'
      simp [Node.kind] at hk
    | hinacc n =>
      intro path nd' hnd' hk _
      simp [scanAt, allNodes, allNodesList] at hnd'
      subst hnd'
      simp [Node.kind] at hk
    | hdir n cs ih =>
      intro path nd' hnd' hk hm'
      by_cases hmp : matchesAny pats path = true
      · simp [scanAt, hmp, allNodes, allNodesList] at hnd'
        subst hnd'
        simp [Node.excluded, Node.size, Node.children]
      · simp only [scanAt, hmp, Bool.false_eq_true, if_false, allNodes,
          List.mem_cons] at hnd'
        rcases hnd' with h | h
        · subst h
          simp [Node.path] at hm'
          exact absurd hm' hmp
        · obtain ⟨c, hc, hmem⟩ := mem_allNodesList_scanKids pats path cs nd' h
          exact ih c hc _ nd' hmem hk hm'
  exact ⟨(main e root nd hnd hdir hm).1, (main e root nd hnd hdir hm).2.1,
    (main e root nd hnd hdir hm).2.2, scanAt_aggOk pats e root⟩

theorem C5_exclusion_witness :
    (scanAt ["C:\\data"] "C:\\data" sampleFs ∈
        allNodes (scanAt ["C:\\data"] "C:\\data" sampleFs) ∧
      (scanAt ["C:\\data"] "C:\\data" sampleFs).kind = Kind.dir ∧
      matchesAny ["C:\\data"] (scanAt ["C:\\data"] "C:\\data" sampleFs).path = true) ∧
    ((scanAt ["C:\\data"] "C:\\data" sampleFs).excluded = true ∧
      (scanAt ["C:\\data"] "C:\\data" sampleFs).size = 0 ∧
      (scanAt ["C:\\data"] "C:\\data" sampleFs).children = [] ∧
      aggOk (scanAt ["C:\\data"] "C:\\data" sampleFs) = true) :=
  ⟨⟨self_mem_allNodes _, by decide, by decide⟩,
    C5_exclusion ["C:\\data"] "C:\\data" sampleFs _ (self_mem_allNodes _)
      (by decide) (by decide)⟩

mutual
/-- Modelled from the spec: a concurrent execution of the scan, abstracted by
the schedule it induces.  The concurrency limit `lim` bounds how many
listings may run at once, and the oracle `σ` gives, for each directory, the
order in which its sibling subtree results complete and are summed
(spec §5: "sibling subdirectories may complete in any order; the final
aggregate sum is order-independent").  Neither changes which entries are
visited; each node is written by the single task owning it. -/
def scanOrdAt (pats : List String) (lim : Nat)
    (σ : String → List Nat → List Nat) (path : String) : FsEntry → Node
  | .file n s => .mk path n .file s [] false
  | .inaccessible n => .mk path n .inaccessible 0 [] false
  | .dir n cs =>
    if matchesAny pats path then .mk path n .dir 0 [] true
    else
      let kids := scanOrdKids pats lim σ path cs
      .mk path n .dir (σ path (kids.map Node.size)).sum kids false

/-- Scheduled scan of the ordered children of a directory. -/
def scanOrdKids (pats : List String) (lim : Nat)
    (σ : String → List Nat → List Nat) (parent : String) :
    List FsEntry → List Node
  | [] => []
  | c :: cs =>
    scanOrdAt pats lim σ (joinPath parent c.name) c ::
      scanOrdKids pats lim σ parent cs
end

theorem scanOrdKids_eq_of (pats : List String) (lim : Nat)
    (σ : String → List Nat → List Nat) (parent : String) (cs : List FsEntry)
    (h : ∀ c ∈ cs, ∀ path, scanOrdAt pats lim σ path c = scanAt pats path c) :
    scanOrdKids pats lim σ parent cs = scanKids pats parent cs := by
  induction cs with
  | nil => simp [scanOrdKids, scanKids]
  | cons c cs ih =>
    simp only [scanOrdKids, scanKids]
    rw [h c (by simp) _, ih (fun c hc path => h c (by simp [hc]) path)]

theorem scanOrdAt_eq_scanAt (pats : List String) (lim : Nat)
    (σ : String → List Nat → List Nat) (hσ : ∀ p l, (σ p l).Perm l)
    (e : FsEntry) : ∀ path, scanOrdAt pats lim σ path e = scanAt pats path e := by
  induction e using FsEntry.memInd with
  | hfile n s => intro path; rfl
  | hinacc n => intro path; rfl
  | hdir n cs ih =>
    intro path
    by_cases hm : matchesAny pats path = true
    · simp [scanOrdAt, scanAt, hm]
    · simp only [scanOrdAt, scanAt, hm, Bool.false_eq_true, if_false]
      rw [scanOrdKids_eq_of pats lim σ path cs ih, (hσ path _).sum_eq]
      rfl

/-- C7: for any fixed, static directory tree, a completed scan produces the
identical final aggregate tree for any two concurrency limits and any two
completion orders of sibling subdirectories: the scheduled scan equals the
deterministic scan whatever schedule the concurrency induces. -/
theorem C7_schedule_independence (pats : List String) (root : String)
    (e : FsEntry) (lim1 lim2 : Nat) (σ1 σ2 : String → List Nat → List Nat)
    (hσ1 : ∀ p l, (σ1 p l).Perm l) (hσ2 : ∀ p l, (σ2 p l).Perm l) :
    scanOrdAt pats lim1 σ1 root e = scanOrdAt pats lim2 σ2 root e ∧
      scanOrdAt pats lim1 σ1 root e = scanAt pats root e := by
  have h1 := scanOrdAt_eq_scanAt pats lim1 σ1 hσ1 e root
  have h2 := scanOrdAt_eq_scanAt pats lim2 σ2 hσ2 e root
  exact ⟨h1.trans h2.symm, h1⟩

theorem C7_schedule_independence_witness :
    ((∀ p l, ((fun (_ : String) (l : List Nat) => l.reverse) p l).Perm l) ∧
      (∀ p l, ((fun (_ : String) (l : List Nat) => l) p l).Perm l)) ∧
    (scanOrdAt [] 1 (fun _ l => l.reverse) "C:\\data" sampleFs =
        scanOrdAt [] 16 (fun _ l => l) "C:\\data" sampleFs ∧
      scanOrdAt [] 1 (fun _ l => l.reverse) "C:\\data" sampleFs =
        scanAt [] "C:\\data" sampleFs) :=
  ⟨⟨fun _ l => l.reverse_perm, fun _ l => List.Perm.refl l⟩,
    C7_schedule_independence [] "C:\\data" sampleFs 1 16 _ _
      (fun _ l => l.reverse_perm) (fun _ l => List.Perm.refl l)⟩

/-- Modelled from the spec: the scheduler state of one scan — the number of
directory-listing tasks currently running and the number of spawned tasks
waiting for an execution slot (spec §9: a counting semaphore gates task
admission; spawning may exceed the limit logically, as pending work). -/
structure SchedState where
  running : Nat
  pending : Nat
deriving DecidableEq, Repr

/-- Modelled from the spec: scheduler transitions (spec §4.2).  A pending
task is admitted to execution only while the number of concurrently running
tasks is below the limit; a running task may finish, spawning any number of
child subdirectory tasks as new pending work (so the tree shape is
arbitrary). -/
inductive SchedStep (lim : Nat) : SchedState → SchedState → Prop where
  | start (s : SchedState) (hp : 0 < s.pending) (hr : s.running < lim) :
      SchedStep lim s ⟨s.running + 1, s.pending - 1⟩
  | finish (s : SchedState) (spawned : Nat) (hr : 0 < s.running) :
      SchedStep lim s ⟨s.running - 1, s.pending + spawned⟩

/-- Scheduler states reachable from the start of a scan: the root directory
task pending, nothing running yet. -/
inductive SchedReachable (lim : Nat) : SchedState → Prop where
  | init : SchedReachable lim ⟨0, 1⟩
  | step (s t : SchedState) (hs : SchedReachable lim s)
      (ht : SchedStep lim s t) : SchedReachable lim t

/-- Modelled from the spec: the concurrency limit defaults to 8 when the
caller does not choose one (spec §5, §6). -/
def defaultConcurrency : Nat := 8

/-- C10: for every scan configured with concurrency limit `lim` (default 8
when the caller does not choose one), at no point during the scan do more
than `lim` directory-listing operations run simultaneously, whatever the
shape of the tree: `running ≤ lim` is an invariant of every reachable
scheduler state. -/
theorem C10_concurrency_bound (lim : Nat) (s : SchedState)
    (hs : SchedReachable lim s) :
    s.running ≤ lim ∧ defaultConcurrency = 8 := by
  refine ⟨?_, rfl⟩
  induction hs with
  | init => simp
  | step s t _ ht ih =>
    cases ht with
    | start hp hr => simpa using hr
    | finish spawned hr => simp only []; omega

theorem C10_concurrency_bound_witness :
    SchedReachable 8 ⟨1, 0⟩ ∧
      ((⟨1, 0⟩ : SchedState).running ≤ 8 ∧ defaultConcurrency = 8) :=
  ⟨SchedReachable.step ⟨0, 1⟩ ⟨1, 0⟩ SchedReachable.init
      (SchedStep.start ⟨0, 1⟩ (by decide) (by decide)),
    C10_concurrency_bound 8 ⟨1, 0⟩
      (SchedReachable.step ⟨0, 1⟩ ⟨1, 0⟩ SchedReachable.init
        (SchedStep.start ⟨0, 1⟩ (by decide) (by decide)))⟩

/-- Modelled from the spec: path canonicalization (spec §4.3) — separators
normalized to the Windows separator, case folded per the OS convention
(Windows is case-insensitive), and trailing separators stripped, so that
`C:\foo` and `c:\foo\` address the same cache entry. -/
def canonicalize (s : String) : String :=
  let norm := s.data.map (fun c => Char.toLower (if c = '/' then '\\' else c))
  ⟨(norm.reverse.dropWhile (fun c => c = '\\')).reverse⟩

/-- Modelled from the spec: the scan cache — entries keyed by canonical root
path (spec §3 `CacheEntry`). -/
abbrev Cache := List (String × ScanResult)

/-- Modelled from the spec: `SaveCache` (spec §4.3).  A cache entry is
created only on successful scan completion, never for a cancelled/partial
result, and a new completed scan of the same root supersedes the old entry. -/
def saveCache (res : ScanResult) (root : String) (c : Cache) : Cache :=
  if res.cancelled then c
  else (canonicalize root, res) :: c.filter (fun kv => !(kv.1 == canonicalize root))

/-- Validation of a found cache entry: a stored incomplete result, or an
entry whose stored root does not match the requested canonical path, is
ignored as a miss. -/
def cacheHit (root : String) (kv : String × ScanResult) : Option ScanResult :=
  if kv.2.cancelled || !(canonicalize kv.2.root == canonicalize root) then none
  else some kv.2

/-- Modelled from the spec: `LoadCache` (spec §4.3).  The requested root is
canonicalized before lookup; "no entry", a stored incomplete result, and an
entry for a different root are all misses (`none`), never errors. -/
def loadCache (root : String) (c : Cache) : Option ScanResult :=
  match c.find? (fun kv => kv.1 == canonicalize root) with
  | none => none
  | some kv => cacheHit root kv

theorem loadCache_root (c : Cache) (root : String) (out : ScanResult)
    (hload : loadCache root c = some out) :
    canonicalize out.root = canonicalize root := by
  unfold loadCache at hload
  split at hload
  · exact absurd hload (by simp)
  · rename_i kv hfind
    unfold cacheHit at hload
    split at hload
    · exact absurd hload (by simp)
    · rename_i hguard
      obtain rfl : kv.2 = out := Option.some.inj hload
      have h2 : (canonicalize kv.2.root == canonicalize root) = true := by
        cases hb : (canonicalize kv.2.root == canonicalize root) with
        | false => exact absurd (by simp [hb]) hguard
        | true => rfl
      exact eq_of_beq h2

/-- C4: saving a completed `ScanResult` for root `r` and then loading for any
canonical-equivalent form of `r` (trailing separator, different case — the
OS is case-insensitive) returns the saved tree; loading for any root whose
canonical form differs returns a miss; and, over any cache whatsoever, a
load never returns a result whose root does not match the requested
canonical path. -/
theorem C4_cache_round_trip (res : ScanResult) (r rEq rNe : String)
    (hcomplete : res.cancelled = false)
    (hroot : canonicalize res.root = canonicalize r)
    (hEq : canonicalize rEq = canonicalize r)
    (hNe : canonicalize rNe ≠ canonicalize r) :
    loadCache rEq (saveCache res r []) = some res ∧
      loadCache rNe (saveCache res r []) = none ∧
      ∀ (c : Cache) (root : String) (out : ScanResult),
        loadCache root c = some out → canonicalize out.root = canonicalize root := by
  have hsave : saveCache res r [] = [(canonicalize r, res)] := by
    simp [saveCache, hcomplete]
  refine ⟨?_, ?_, fun c root out h => loadCache_root c root out h⟩
  · rw [hsave]
    have hkey : (canonicalize r == canonicalize rEq) = true := by simp [hEq]
    have hroot2 : (canonicalize res.root == canonicalize rEq) = true := by
      simp [hroot.trans hEq.symm]
    simp [loadCache, List.find?, hkey, cacheHit, hcomplete, hroot2]
  · rw [hsave]
    have hkey : (canonicalize r == canonicalize rNe) = false := by
      simp only [beq_eq_false_iff_ne, ne_eq]
      exact fun h => hNe h.symm
    simp [loadCache, List.find?, hkey]

/-- A concrete completed scan result used to instantiate the cache theorems. -/
def sampleRes : ScanResult :=
  ⟨"C:\\Data", Node.mk "C:\\Data" "Data" Kind.dir 0 [] false, false⟩

theorem C4_cache_round_trip_witness :
    (sampleRes.cancelled = false ∧
      canonicalize sampleRes.root = canonicalize "C:\\Data" ∧
      canonicalize "c:/data\\" = canonicalize "C:\\Data" ∧
      canonicalize "C:\\Other" ≠ canonicalize "C:\\Data") ∧
    (loadCache "c:/data\\" (saveCache sampleRes "C:\\Data" []) = some sampleRes ∧
      loadCache "C:\\Other" (saveCache sampleRes "C:\\Data" []) = none ∧
      ∀ (c : Cache) (root : String) (out : ScanResult),
        loadCache root c = some out →
          canonicalize out.root = canonicalize root) :=
  ⟨⟨rfl, rfl, by decide, by decide⟩,
    C4_cache_round_trip sampleRes "C:\\Data" "c:/data\\" "C:\\Other" rfl rfl
      (by decide) (by decide)⟩

/-- What `runAnalyze` consumes of the `os.Stat` result for the target path:
`none` models a stat error; the info's `isDir` tells whether the path is a
directory (`cmd/analyze.go` line 51 — the code checks only the error). -/
structure FileInfo where
  isDir : Bool

/-- Outcome of the `analyze` command: a fatal error reported before any
scanning, or the interactive explorer launched on a tree, with a flag
recording whether a fresh scan ran (cache miss) or the cached tree was
shown. -/
inductive AnalyzeOutcome where
  | fatalError
  | display (tree : Node) (freshScan : Bool)

def AnalyzeOutcome.isFatal : AnalyzeOutcome → Bool
  | .fatalError => true
  | .display _ _ => false

def AnalyzeOutcome.scanRan : AnalyzeOutcome → Bool
  | .fatalError => false
  | .display _ fresh => fresh

/-- The concurrency limit `runAnalyze` always passes to the scanner
(`cmd/analyze.go` line 63: `analyze.NewScanner(8, exclude)`). -/
def analyzeConcurrency : Nat := 8

/-- Translated from `runAnalyze` in `cmd/analyze.go` (lines 35–103).  The
target is validated with `os.Stat`: any stat error is fatal, reported before
any scanning (the stat result is otherwise unused — `IsDir()` is never
consulted).  Then the cache is tried; on a hit the cached tree goes straight
to the explorer; only on a miss is a scanner built from the `--exclude`
list, the fresh scan run with concurrency 8, and the result saved.  The
`--depth` and `--min-size` flags are declared by the command's `init` but
never read by `runAnalyze`. -/
def runAnalyze (statRes : Option FileInfo) (cache : Cache) (fs : FsEntry)
    (target : String) (exclude : List String) (depth : Nat)
    (minSize : String) : AnalyzeOutcome × Cache :=
  match statRes with
  | none => (.fatalError, cache)
  | some _ =>
    match loadCache target cache with
    | some res => (.display res.tree false, cache)
    | none =>
      let root := scanOrdAt exclude analyzeConcurrency (fun _ l => l) target fs
      (.display root true, saveCache ⟨target, root, false⟩ target cache)

/-- C2 counterexample: on a target that exists but is not a directory
(`os.Stat` succeeds with `IsDir() = false`), `runAnalyze` does not fail —
it proceeds to a fresh scan and displays its result, contradicting the
claim that a non-directory root is reported as fatal before any scanning. -/
theorem C2_not_dir_scans_anyway :
    ((runAnalyze (some ⟨false⟩) [] sampleFs "C:\\notes.txt" [] 0 "").1).isFatal
        = false ∧
      ((runAnalyze (some ⟨false⟩) [] sampleFs "C:\\notes.txt" [] 0 "").1).scanRan
        = true := by
  constructor <;> rfl

/-- C2 (amended): if `os.Stat` on the root path fails (the path does not
exist or cannot be accessed), the program fails with an error reported to
the caller before any scanning begins, and no scan or partial result is
produced (the cache is untouched); but a path that exists and is not a
directory passes the validation — `IsDir` is never consulted — and is
analyzed anyway. -/
theorem C2_stat_error_fatal (cache : Cache) (fs : FsEntry) (target : String)
    (exclude : List String) (depth : Nat) (minSize : String) (fi : FileInfo) :
    (runAnalyze none cache fs target exclude depth minSize).1 = .fatalError ∧
      (runAnalyze none cache fs target exclude depth minSize).2 = cache ∧
      ((runAnalyze (some fi) cache fs target exclude depth minSize).1).isFatal
        = false := by
  refine ⟨rfl, rfl, ?_⟩
  cases hload : loadCache target cache <;>
    simp [runAnalyze, hload, AnalyzeOutcome.isFatal]

/-- C8: whenever the cache load succeeds for the target, the tree handed to
the interactive explorer is the cached tree regardless of the `--exclude`
flag: two invocations differing only in their exclusion lists display the
same result, because exclusions are consulted only when constructing a fresh
scanner after a cache miss. -/
theorem C8_cache_hit_ignores_exclude (fi : FileInfo) (cache : Cache)
    (fs : FsEntry) (target : String) (e1 e2 : List String) (depth : Nat)
    (minSize : String) (res : ScanResult)
    (hhit : loadCache target cache = some res) :
    (runAnalyze (some fi) cache fs target e1 depth minSize).1 =
        .display res.tree false ∧
      runAnalyze (some fi) cache fs target e1 depth minSize =
        runAnalyze (some fi) cache fs target e2 depth minSize := by
  constructor <;> simp [runAnalyze, hhit]

theorem C8_cache_hit_ignores_exclude_witness :
    loadCache "c:/data\\" (saveCache sampleRes "C:\\Data" []) = some sampleRes ∧
      ((runAnalyze (some ⟨true⟩) (saveCache sampleRes "C:\\Data" []) sampleFs
            "c:/data\\" ["*.tmp"] 0 "").1 = .display sampleRes.tree false ∧
        runAnalyze (some ⟨true⟩) (saveCache sampleRes "C:\\Data" []) sampleFs
            "c:/data\\" ["*.tmp"] 0 "" =
          runAnalyze (some ⟨true⟩) (saveCache sampleRes "C:\\Data" []) sampleFs
            "c:/data\\" [] 0 "") :=
  ⟨rfl, C8_cache_hit_ignores_exclude ⟨true⟩ (saveCache sampleRes "C:\\Data" [])
    sampleFs "c:/data\\" ["*.tmp"] [] 0 "" sampleRes rfl⟩

/-- C9: the scan performed and the tree displayed by the `analyze` command
are independent of the values of the `--depth` and `--min-size` flags — the
command declares them but `runAnalyze` never reads them — and the
concurrency limit handed to the scanner is always the constant 8. -/
theorem C9_depth_minsize_unused (statRes : Option FileInfo) (cache : Cache)
    (fs : FsEntry) (target : String) (exclude : List String)
    (d1 d2 : Nat) (m1 m2 : String) :
    runAnalyze statRes cache fs target exclude d1 m1 =
        runAnalyze statRes cache fs target exclude d2 m2 ∧
      analyzeConcurrency = 8 :=
  ⟨rfl, rfl⟩

/-- An axis-aligned rectangle with rational coordinates. -/
structure Rect where
  x : ℚ
  y : ℚ
  w : ℚ
  h : ℚ
deriving DecidableEq, Repr

def Rect.area (r : Rect) : ℚ := r.w * r.h

/-- Transpose of a rectangle (swap the axes). -/
def Rect.tr (r : Rect) : Rect := ⟨r.y, r.x, r.h, r.w⟩

/-- One child handed to the treemap layout: an identifier and its size
(spec §4.4: "ordered sequence of (id, size)"). -/
structure TChild where
  id : Nat
  size : ℚ
deriving DecidableEq, Repr

/-- Sum of the sizes of a list of layout children. -/
def sumTS (l : List TChild) : ℚ := (l.map TChild.size).sum

/-- Insert a child into a size-descending list, keeping it sorted. -/
def insertDesc (c : TChild) : List TChild → List TChild
  | [] => [c]
  | d :: ds => if d.size < c.size then c :: d :: ds else d :: insertDesc c ds

/-- Sort children descending by size (spec §4.4: "children are first sorted
descending by size"). -/
def sortDesc : List TChild → List TChild
  | [] => []
  | c :: cs => insertDesc c (sortDesc cs)

/-- Aspect ratio of a `a × b` rectangle: the elongation `max (a/b) (b/a)`. -/
def aspect (a b : ℚ) : ℚ := max (a / b) (b / a)

/-- Modelled from the spec: the worst aspect ratio over the rectangles of a
candidate row with sizes `rs`, laid along the shorter dimension of `rect`
when the total remaining size is `S`: the row strip has thickness
`(Σrs / S) ·` (longer side) and child `s` takes fraction `s / Σrs` of the
shorter side. -/
def worstAspect (rect : Rect) (S : ℚ) (rs : List ℚ) : ℚ :=
  (rs.map (fun s => aspect ((s / rs.sum) * min rect.w rect.h)
      ((rs.sum / S) * max rect.w rect.h))).foldr max 0

/-- Greedy row growth (spec §4.4): keep adding the next child while doing so
does not worsen the worst aspect ratio of the current row; stop as soon as
it would. -/
def pickRowAux (rect : Rect) (S : ℚ) (acc : List TChild) :
    List TChild → List TChild × List TChild
  | [] => (acc, [])
  | c :: cs =>
    if worstAspect rect S ((acc ++ [c]).map TChild.size) ≤
        worstAspect rect S (acc.map TChild.size) then
      pickRowAux rect S (acc ++ [c]) cs
    else (acc, c :: cs)

/-- Pick the next row: it always contains at least the first child. -/
def pickRow (rect : Rect) (S : ℚ) (c : TChild) (cs : List TChild) :
    List TChild × List TChild :=
  pickRowAux rect S [c] cs

/-- Lay the rectangles of one row as bands stacked vertically inside the
strip `r`: the band of child `c` gets the fraction `c.size / total` of the
strip's height, and `off` is the fraction of the height already used. -/
def sliceVert (r : Rect) (total : ℚ) : List TChild → ℚ → List (Nat × Rect)
  | [], _ => []
  | c :: cs, off =>
    (c.id, ⟨r.x, r.y + off * r.h, r.w, c.size / total * r.h⟩) ::
      sliceVert r total cs (off + c.size / total)

/-- Lay the rectangles of one row as bands placed side by side horizontally:
the transpose of `sliceVert`. -/
def sliceHorz (r : Rect) (total : ℚ) (cs : List TChild) (off : ℚ) :
    List (Nat × Rect) :=
  (sliceVert r.tr total cs off).map (fun p => (p.1, p.2.tr))

/-- Modelled from the spec: squarified row packing (spec §4.4), fuel-driven
(the fuel is bounded below by the list length, which every recursive call
preserves since a row is never empty).  The available rectangle is filled
row by row: the greedily chosen row is laid out across the current shorter
dimension, taking the strip whose share of the area is the row's share of
the remaining total size, and the rest is packed into the remaining
rectangle. -/
def squarifyF : Nat → Rect → ℚ → List TChild → List (Nat × Rect)
  | 0, _, _, _ => []
  | _ + 1, _, _, [] => []
  | fuel + 1, rect, S, c :: cs =>
    let pr := pickRow rect S c cs
    let rs := sumTS pr.1
    if rect.h ≤ rect.w then
      sliceVert ⟨rect.x, rect.y, rs / S * rect.w, rect.h⟩ rs pr.1 0 ++
        squarifyF fuel ⟨rect.x + rs / S * rect.w, rect.y,
          rect.w - rs / S * rect.w, rect.h⟩ (S - rs) pr.2
    else
      sliceHorz ⟨rect.x, rect.y, rect.w, rs / S * rect.h⟩ rs pr.1 0 ++
        squarifyF fuel ⟨rect.x, rect.y + rs / S * rect.h,
          rect.w, rect.h - rs / S * rect.h⟩ (S - rs) pr.2

/-- Squarified packing of a list of positive-size children whose sizes sum
to `S` into `rect`. -/
def squarify (rect : Rect) (S : ℚ) (l : List TChild) : List (Nat × Rect) :=
  squarifyF l.length rect S l

/-- The order in which `TreemapLayout` emits its children: sorted descending
by size, positive sizes first, zero-size children last. -/
def layoutOrder (children : List TChild) : List TChild :=
  (sortDesc children).filter (fun c => decide (0 < c.size)) ++
    (sortDesc children).filter (fun c => !decide (0 < c.size))

/-- Modelled from the spec: `TreemapLayout` (spec §4.4) — pure and
deterministic (a function).  Children are sorted descending by size;
zero-size children receive a degenerate zero-area rectangle at the
rectangle's origin and are excluded from the row-packing computation to
avoid division by zero; the positive-size children are packed greedily row
by row with the squarified rule. -/
def TreemapLayout (children : List TChild) (rect : Rect) : List (Nat × Rect) :=
  let sorted := sortDesc children
  let pos := sorted.filter (fun c => decide (0 < c.size))
  let zs := sorted.filter (fun c => !decide (0 < c.size))
  squarify rect (sumTS pos) pos ++
    zs.map (fun c => (c.id, ⟨rect.x, rect.y, 0, 0⟩))

/-- `inner` lies within `outer`. -/
def subRect (inner outer : Rect) : Prop :=
  outer.x ≤ inner.x ∧ inner.x + inner.w ≤ outer.x + outer.w ∧
    outer.y ≤ inner.y ∧ inner.y + inner.h ≤ outer.y + outer.h

/-- Two rectangles do not overlap: they are separated along one of the two
axes, so their interiors are disjoint. -/
def rectDisjoint (r1 r2 : Rect) : Prop :=
  r1.x + r1.w ≤ r2.x ∨ r2.x + r2.w ≤ r1.x ∨
    r1.y + r1.h ≤ r2.y ∨ r2.y + r2.h ≤ r1.y

theorem Rect.tr_tr (r : Rect) : r.tr.tr = r := rfl

theorem Rect.area_tr (r : Rect) : r.tr.area = r.area := by
  simp [Rect.area, Rect.tr, mul_comm]

theorem subRect_tr {a b : Rect} (h : subRect a b) : subRect a.tr b.tr := by
  obtain ⟨h1, h2, h3, h4⟩ := h
  exact ⟨h3, h4, h1, h2⟩

theorem rectDisjoint_tr {a b : Rect} (h : rectDisjoint a b) :
    rectDisjoint a.tr b.tr := by
  rcases h with h | h | h | h
  · exact Or.inr (Or.inr (Or.inl h))
  · exact Or.inr (Or.inr (Or.inr h))
  · exact Or.inl h
  · exact Or.inr (Or.inl h)

theorem subRect_refl (r : Rect) : subRect r r :=
  ⟨le_refl _, le_refl _, le_refl _, le_refl _⟩

theorem subRect_trans {a b c : Rect} (h1 : subRect a b) (h2 : subRect b c) :
    subRect a c := by
  obtain ⟨a1, a2, a3, a4⟩ := h1
  obtain ⟨b1, b2, b3, b4⟩ := h2
  exact ⟨le_trans b1 a1, le_trans a2 b2, le_trans b3 a3, le_trans a4 b4⟩

theorem rectDisjoint_of_sep_x {a b A B : Rect} (ha : subRect a A)
    (hb : subRect b B) (hAB : A.x + A.w ≤ B.x) : rectDisjoint a b :=
  Or.inl (le_trans ha.2.1 (le_trans hAB hb.1))

theorem rectDisjoint_of_sep_y {a b A B : Rect} (ha : subRect a A)
    (hb : subRect b B) (hAB : A.y + A.h ≤ B.y) : rectDisjoint a b :=
  Or.inr (Or.inr (Or.inl (le_trans ha.2.2.2 (le_trans hAB hb.2.2.1))))

theorem insertDesc_perm (c : TChild) (l : List TChild) :
    (insertDesc c l).Perm (c :: l) := by
  induction l with
  | nil => simp [insertDesc]
  | cons d ds ih =>
    simp only [insertDesc]
    split
    · exact List.Perm.refl _
    · exact ((ih.cons d).trans (List.Perm.swap c d ds))

theorem sortDesc_perm (l : List TChild) : (sortDesc l).Perm l := by
  induction l with
  | nil => simp [sortDesc]
  | cons c cs ih => exact (insertDesc_perm c (sortDesc cs)).trans (ih.cons c)

theorem sumTS_append (l1 l2 : List TChild) :
    sumTS (l1 ++ l2) = sumTS l1 + sumTS l2 := by
  simp [sumTS]

theorem sumTS_perm {l1 l2 : List TChild} (h : l1.Perm l2) :
    sumTS l1 = sumTS l2 :=
  (h.map TChild.size).sum_eq

theorem sumTS_nonneg {l : List TChild} (h : ∀ c ∈ l, 0 ≤ c.size) :
    0 ≤ sumTS l := by
  induction l with
  | nil => simp [sumTS]
  | cons c cs ih =>
    have : sumTS (c :: cs) = c.size + sumTS cs := by simp [sumTS]
    rw [this]
    exact add_nonneg (h c (by simp)) (ih (fun c hc => h c (by simp [hc])))

theorem sumTS_pos {l : List TChild} (hne : l ≠ [])
    (h : ∀ c ∈ l, 0 < c.size) : 0 < sumTS l := by
  cases l with
  | nil => exact absurd rfl hne
  | cons c cs =>
    have : sumTS (c :: cs) = c.size + sumTS cs := by simp [sumTS]
    rw [this]
    exact add_pos_of_pos_of_nonneg (h c (by simp))
      (sumTS_nonneg (fun c hc => le_of_lt (h c (by simp [hc]))))

theorem layoutOrder_perm (children : List TChild) :
    (layoutOrder children).Perm children :=
  (List.filter_append_perm _ (sortDesc children)).trans (sortDesc_perm children)

theorem pickRowAux_append (rect : Rect) (S : ℚ) (rest : List TChild) :
    ∀ acc, (pickRowAux rect S acc rest).1 ++ (pickRowAux rect S acc rest).2 =
      acc ++ rest := by
  induction rest with
  | nil => intro acc; simp [pickRowAux]
  | cons c cs ih =>
    intro acc
    simp only [pickRowAux]
    split
    · rw [ih (acc ++ [c])]; simp
    · rfl

theorem pickRowAux_fst_ne (rect : Rect) (S : ℚ) (rest : List TChild) :
    ∀ acc, acc ≠ [] → (pickRowAux rect S acc rest).1 ≠ [] := by
  induction rest with
  | nil => intro acc hacc; simpa [pickRowAux] using hacc
  | cons c cs ih =>
    intro acc hacc
    simp only [pickRowAux]
    split
    · exact ih (acc ++ [c]) (by simp)
    · exact hacc

theorem pickRow_append (rect : Rect) (S : ℚ) (c : TChild) (cs : List TChild) :
    (pickRow rect S c cs).1 ++ (pickRow rect S c cs).2 = c :: cs :=
  pickRowAux_append rect S cs [c]

theorem pickRow_fst_ne (rect : Rect) (S : ℚ) (c : TChild) (cs : List TChild) :
    (pickRow rect S c cs).1 ≠ [] :=
  pickRowAux_fst_ne rect S cs [c] (by simp)

theorem pickRow_snd_length (rect : Rect) (S : ℚ) (c : TChild)
    (cs : List TChild) : (pickRow rect S c cs).2.length ≤ cs.length := by
  have happ := pickRow_append rect S c cs
  have hne := pickRow_fst_ne rect S c cs
  have hlen : (pickRow rect S c cs).1.length + (pickRow rect S c cs).2.length
      = cs.length + 1 := by
    have := congrArg List.length happ
    simpa using this
  have : 1 ≤ (pickRow rect S c cs).1.length := by
    cases hfst : (pickRow rect S c cs).1 with
    | nil => exact absurd hfst hne
    | cons a as => simp
  omega

theorem pickRow_mem (rect : Rect) (S : ℚ) (c : TChild) (cs : List TChild) :
    (∀ d ∈ (pickRow rect S c cs).1, d ∈ c :: cs) ∧
      (∀ d ∈ (pickRow rect S c cs).2, d ∈ c :: cs) := by
  constructor <;> intro d hd <;> rw [← pickRow_append rect S c cs] <;>
    simp [hd]

theorem pickRow_sum (rect : Rect) (S : ℚ) (c : TChild) (cs : List TChild) :
    sumTS (pickRow rect S c cs).1 + sumTS (pickRow rect S c cs).2 =
      sumTS (c :: cs) := by
  rw [← sumTS_append, pickRow_append]

theorem sliceVert_fst (r : Rect) (total : ℚ) (cs : List TChild) :
    ∀ off, (sliceVert r total cs off).map Prod.fst = cs.map TChild.id := by
  induction cs with
  | nil => intro off; simp [sliceVert]
  | cons c cs ih => intro off; simp [sliceVert, ih]

theorem sliceVert_area (r : Rect) (total : ℚ) (cs : List TChild) :
    ∀ off, (sliceVert r total cs off).map (fun p => p.2.area) =
      cs.map (fun c => c.size / total * r.area) := by
  induction cs with
  | nil => intro off; simp [sliceVert]
  | cons c cs ih =>
    intro off
    simp only [sliceVert, List.map_cons, ih]
    congr 1
    simp only [Rect.area]
    ring

theorem sliceVert_y_lb (r : Rect) (total : ℚ) (htot : 0 < total)
    (hh : 0 ≤ r.h) (cs : List TChild) :
    ∀ off, (∀ c ∈ cs, 0 ≤ c.size) →
      ∀ p ∈ sliceVert r total cs off, r.y + off * r.h ≤ p.2.y := by
  induction cs with
  | nil => intro off _ p hp; simp [sliceVert] at hp
  | cons c cs ih =>
    intro off hs p hp
    simp only [sliceVert, List.mem_cons] at hp
    rcases hp with h | h
    · subst h; simp
    · have hrec := ih (off + c.size / total)
        (fun d hd => hs d (by simp [hd])) p h
      have hcn : 0 ≤ c.size / total :=
        div_nonneg (hs c (by simp)) htot.le
      nlinarith [mul_nonneg hcn hh]

theorem sliceVert_within (r : Rect) (total : ℚ) (htot : 0 < total)
    (hw : 0 ≤ r.w) (hh : 0 ≤ r.h) (cs : List TChild) :
    ∀ off, 0 ≤ off → (∀ c ∈ cs, 0 ≤ c.size) →
      off + sumTS cs / total ≤ 1 →
      ∀ p ∈ sliceVert r total cs off, subRect p.2 r := by
  induction cs with
  | nil => intro off _ _ _ p hp; simp [sliceVert] at hp
  | cons c cs ih =>
    intro off hoff hs hbound p hp
    have hsum : sumTS (c :: cs) = c.size + sumTS cs := by simp [sumTS]
    have hcn : 0 ≤ c.size / total := div_nonneg (hs c (by simp)) htot.le
    have hrest : 0 ≤ sumTS cs / total :=
      div_nonneg (sumTS_nonneg (fun d hd => hs d (by simp [hd]))) htot.le
    have hbound1 : off + c.size / total ≤ 1 := by
      rw [hsum, add_div] at hbound; linarith
    simp only [sliceVert, List.mem_cons] at hp
    rcases hp with h | h
    · subst h
      refine ⟨le_refl _, le_refl _, ?_, ?_⟩
      · simp only []
        nlinarith [mul_nonneg hoff hh]
      · simp only []
        nlinarith [mul_nonneg (add_nonneg hoff hcn) hh]
    · refine ih (off + c.size / total) (add_nonneg hoff hcn)
        (fun d hd => hs d (by simp [hd])) ?_ p h
      rw [hsum, add_div] at hbound; linarith

theorem sliceVert_pairwise (r : Rect) (total : ℚ) (htot : 0 < total)
    (hh : 0 ≤ r.h) (cs : List TChild) :
    ∀ off, (∀ c ∈ cs, 0 ≤ c.size) →
      List.Pairwise (fun a b => rectDisjoint a.2 b.2)
        (sliceVert r total cs off) := by
  induction cs with
  | nil => intro off _; simp [sliceVert]
  | cons c cs ih =>
    intro off hs
    simp only [sliceVert]
    refine List.Pairwise.cons ?_ (ih _ (fun d hd => hs d (by simp [hd])))
    intro p hp
    have hlb := sliceVert_y_lb r total htot hh cs (off + c.size / total)
      (fun d hd => hs d (by simp [hd])) p hp
    refine Or.inr (Or.inr (Or.inl ?_))
    simp only []
    nlinarith

theorem trMap_fst (l : List (Nat × Rect)) :
    (l.map (fun p => (p.1, p.2.tr))).map Prod.fst = l.map Prod.fst := by
  induction l with
  | nil => rfl
  | cons a l ih => simp [ih]

theorem trMap_area (l : List (Nat × Rect)) :
    (l.map (fun p => (p.1, p.2.tr))).map (fun p => p.2.area) =
      l.map (fun p => p.2.area) := by
  induction l with
  | nil => rfl
  | cons a l ih => simp [ih, Rect.area_tr]

theorem trMap_within {l : List (Nat × Rect)} {R : Rect}
    (h : ∀ p ∈ l, subRect p.2 R) :
    ∀ p ∈ l.map (fun p => (p.1, p.2.tr)), subRect p.2 R.tr := by
  intro p hp
  simp only [List.mem_map] at hp
  obtain ⟨q, hq, rfl⟩ := hp
  exact subRect_tr (h q hq)

theorem trMap_pairwise {l : List (Nat × Rect)}
    (h : List.Pairwise (fun a b => rectDisjoint a.2 b.2) l) :
    List.Pairwise (fun a b => rectDisjoint a.2 b.2)
      (l.map (fun p => (p.1, p.2.tr))) := by
  rw [List.pairwise_map]
  exact h.imp (fun hab => rectDisjoint_tr hab)

theorem sliceHorz_fst (r : Rect) (total : ℚ) (cs : List TChild) (off : ℚ) :
    (sliceHorz r total cs off).map Prod.fst = cs.map TChild.id := by
  rw [sliceHorz, trMap_fst]
  exact sliceVert_fst r.tr total cs off

theorem sliceHorz_area (r : Rect) (total : ℚ) (cs : List TChild) (off : ℚ) :
    (sliceHorz r total cs off).map (fun p => p.2.area) =
      cs.map (fun c => c.size / total * r.area) := by
  rw [sliceHorz, trMap_area, sliceVert_area]
  simp [Rect.area_tr]

theorem sliceHorz_within (r : Rect) (total : ℚ) (htot : 0 < total)
    (hw : 0 ≤ r.w) (hh : 0 ≤ r.h) (cs : List TChild) (off : ℚ)
    (hoff : 0 ≤ off) (hs : ∀ c ∈ cs, 0 ≤ c.size)
    (hbound : off + sumTS cs / total ≤ 1) :
    ∀ p ∈ sliceHorz r total cs off, subRect p.2 r := by
  intro p hp
  have h1 := sliceVert_within r.tr total htot hh hw cs off hoff hs hbound
  have h2 := trMap_within h1 p hp
  rw [Rect.tr_tr] at h2
  exact h2

theorem sliceHorz_pairwise (r : Rect) (total : ℚ) (htot : 0 < total)
    (hw : 0 ≤ r.w) (cs : List TChild) (off : ℚ)
    (hs : ∀ c ∈ cs, 0 ≤ c.size) :
    List.Pairwise (fun a b => rectDisjoint a.2 b.2)
      (sliceHorz r total cs off) :=
  trMap_pairwise (sliceVert_pairwise r.tr total htot hw cs off hs)

theorem squarifyF_nil (fuel : Nat) (rect : Rect) (S : ℚ) :
    squarifyF fuel rect S [] = [] := by
  cases fuel <;> rfl

theorem squarifyF_spec (fuel : Nat) :
    ∀ (rect : Rect) (S : ℚ) (l : List TChild), l.length ≤ fuel →
      S = sumTS l → (∀ c ∈ l, 0 < c.size) → 0 < rect.w → 0 < rect.h →
      (squarifyF fuel rect S l).map Prod.fst = l.map TChild.id ∧
        (squarifyF fuel rect S l).map (fun p => p.2.area) =
          l.map (fun c => c.size / S * rect.area) ∧
        (∀ p ∈ squarifyF fuel rect S l, subRect p.2 rect) ∧
        List.Pairwise (fun a b => rectDisjoint a.2 b.2)
          (squarifyF fuel rect S l) := by
  induction fuel with
  | zero =>
    intro rect S l hlen hS hpos hw hh
    have hl : l = [] := List.length_eq_zero.mp (Nat.le_zero.mp hlen)
    subst hl
    simp [squarifyF]
  | succ fuel ih =>
    intro rect S l hlen hS hpos hw hh
    cases l with
    | nil => simp [squarifyF]
    | cons c cs =>
      have happ := pickRow_append rect S c cs
      have hne := pickRow_fst_ne rect S c cs
      have hrow_pos : ∀ d ∈ (pickRow rect S c cs).1, 0 < d.size :=
        fun d hd => hpos d ((pickRow_mem rect S c cs).1 d hd)
      have hrest_pos : ∀ d ∈ (pickRow rect S c cs).2, 0 < d.size :=
        fun d hd => hpos d ((pickRow_mem rect S c cs).2 d hd)
      have hrs_pos : 0 < sumTS (pickRow rect S c cs).1 := sumTS_pos hne hrow_pos
      have hsum := pickRow_sum rect S c cs
      rw [← hS] at hsum
      have hrest_nonneg : 0 ≤ sumTS (pickRow rect S c cs).2 :=
        sumTS_nonneg (fun d hd => (hrest_pos d hd).le)
      have hrs_le : sumTS (pickRow rect S c cs).1 ≤ S := by linarith
      have hS_pos : 0 < S := by linarith
      have hSne : S ≠ 0 := ne_of_gt hS_pos
      have hrsne : sumTS (pickRow rect S c cs).1 ≠ 0 := ne_of_gt hrs_pos
      have hfrac_pos : 0 < sumTS (pickRow rect S c cs).1 / S :=
        div_pos hrs_pos hS_pos
      have hfrac_le : sumTS (pickRow rect S c cs).1 / S ≤ 1 :=
        (div_le_one hS_pos).mpr hrs_le
      have hlen2 : (pickRow rect S c cs).2.length ≤ fuel := by
        have h1 := pickRow_snd_length rect S c cs
        simp only [List.length_cons] at hlen
        omega
      have hrowbound : (0 : ℚ) + sumTS (pickRow rect S c cs).1 /
          sumTS (pickRow rect S c cs).1 ≤ 1 := by
        rw [div_self hrsne]; norm_num
      simp only [squarifyF]
      by_cases hcase : rect.h ≤ rect.w
      · rw [if_pos hcase]
        have ht_nonneg : 0 ≤ sumTS (pickRow rect S c cs).1 / S * rect.w :=
          (mul_pos hfrac_pos hw).le
        have hsubstrip : subRect ⟨rect.x, rect.y,
            sumTS (pickRow rect S c cs).1 / S * rect.w, rect.h⟩ rect := by
          refine ⟨le_refl _, ?_, le_refl _, le_refl _⟩
          simp only []
          nlinarith
        have hslice_within : ∀ p ∈ sliceVert ⟨rect.x, rect.y,
            sumTS (pickRow rect S c cs).1 / S * rect.w, rect.h⟩
            (sumTS (pickRow rect S c cs).1) (pickRow rect S c cs).1 0,
            subRect p.2 ⟨rect.x, rect.y,
              sumTS (pickRow rect S c cs).1 / S * rect.w, rect.h⟩ :=
          sliceVert_within ⟨rect.x, rect.y,
              sumTS (pickRow rect S c cs).1 / S * rect.w, rect.h⟩
            (sumTS (pickRow rect S c cs).1) hrs_pos ht_nonneg hh.le
            (pickRow rect S c cs).1 0 le_rfl
            (fun d hd => (hrow_pos d hd).le) hrowbound
        have hslice_pair : List.Pairwise (fun a b => rectDisjoint a.2 b.2)
            (sliceVert ⟨rect.x, rect.y,
              sumTS (pickRow rect S c cs).1 / S * rect.w, rect.h⟩
              (sumTS (pickRow rect S c cs).1) (pickRow rect S c cs).1 0) :=
          sliceVert_pairwise ⟨rect.x, rect.y,
              sumTS (pickRow rect S c cs).1 / S * rect.w, rect.h⟩
            (sumTS (pickRow rect S c cs).1) hrs_pos hh.le
            (pickRow rect S c cs).1 0 (fun d hd => (hrow_pos d hd).le)
        cases hrc : (pickRow rect S c cs).2 with
        | nil =>
          rw [hrc] at happ hsum
          rw [squarifyF_nil, List.append_nil]
          have hroweq : (pickRow rect S c cs).1 = c :: cs := by simpa using happ
          refine ⟨?_, ?_, ?_, ?_⟩
          · rw [sliceVert_fst, hroweq]
          · rw [sliceVert_area, hroweq]
            refine List.map_congr_left (fun d hd => ?_)
            simp only [Rect.area]
            rw [← hS, div_self hSne]
            ring
          · intro p hp
            exact subRect_trans (hslice_within p hp) hsubstrip
          · exact hslice_pair
        | cons r0 rest =>
          rw [hrc] at happ hsum hrest_pos hrest_nonneg hlen2
          have hrest_sum_pos : 0 < sumTS (r0 :: rest) :=
            sumTS_pos (by simp) hrest_pos
          have hrs_lt : sumTS (pickRow rect S c cs).1 < S := by linarith
          have hw2 : 0 < rect.w - sumTS (pickRow rect S c cs).1 / S * rect.w := by
            have h1 : sumTS (pickRow rect S c cs).1 / S < 1 :=
              (div_lt_one hS_pos).mpr hrs_lt
            nlinarith
          have hS2 : S - sumTS (pickRow rect S c cs).1 = sumTS (r0 :: rest) := by
            linarith
          have hS2ne : S - sumTS (pickRow rect S c cs).1 ≠ 0 := by
            rw [hS2]; exact ne_of_gt hrest_sum_pos
          have hsubrem : subRect ⟨rect.x +
              sumTS (pickRow rect S c cs).1 / S * rect.w, rect.y,
              rect.w - sumTS (pickRow rect S c cs).1 / S * rect.w, rect.h⟩
              rect := by
            refine ⟨?_, ?_, le_refl _, le_refl _⟩
            · simp only []
              linarith
            · simp only []
              linarith
          obtain ⟨ihf, iha, ihw2, ihp2⟩ := ih
            ⟨rect.x + sumTS (pickRow rect S c cs).1 / S * rect.w, rect.y,
              rect.w - sumTS (pickRow rect S c cs).1 / S * rect.w, rect.h⟩
            (S - sumTS (pickRow rect S c cs).1) (r0 :: rest)
            hlen2 hS2 hrest_pos hw2 hh
          refine ⟨?_, ?_, ?_, ?_⟩
          · rw [List.map_append, sliceVert_fst, ihf, ← List.map_append, happ]
          · rw [List.map_append, sliceVert_area, iha]
            have e1 : (pickRow rect S c cs).1.map
                (fun d => d.size / sumTS (pickRow rect S c cs).1 *
                  Rect.area ⟨rect.x, rect.y,
                    sumTS (pickRow rect S c cs).1 / S * rect.w, rect.h⟩) =
                (pickRow rect S c cs).1.map
                  (fun d => d.size / S * rect.area) := by
              refine List.map_congr_left (fun d hd => ?_)
              simp only [Rect.area]
              field_simp
              ring
            have e2 : (r0 :: rest).map
                (fun d => d.size / (S - sumTS (pickRow rect S c cs).1) *
                  Rect.area ⟨rect.x +
                    sumTS (pickRow rect S c cs).1 / S * rect.w, rect.y,
                    rect.w - sumTS (pickRow rect S c cs).1 / S * rect.w,
                    rect.h⟩) =
                (r0 :: rest).map (fun d => d.size / S * rect.area) := by
              refine List.map_congr_left (fun d hd => ?_)
              simp only [Rect.area]
              field_simp
              ring
            rw [e1, e2, ← List.map_append, happ]
          · intro p hp
            rcases List.mem_append.mp hp with h | h
            · exact subRect_trans (hslice_within p h) hsubstrip
            · exact subRect_trans (ihw2 p h) hsubrem
          · refine List.pairwise_append.mpr ⟨hslice_pair, ihp2, ?_⟩
            intro a ha b hb
            exact rectDisjoint_of_sep_x (hslice_within a ha) (ihw2 b hb)
              (le_of_eq rfl)
      · rw [if_neg hcase]
        have ht_nonneg : 0 ≤ sumTS (pickRow rect S c cs).1 / S * rect.h :=
          (mul_pos hfrac_pos hh).le
        have hsubstrip : subRect ⟨rect.x, rect.y, rect.w,
            sumTS (pickRow rect S c cs).1 / S * rect.h⟩ rect := by
          refine ⟨le_refl _, le_refl _, le_refl _, ?_⟩
          simp only []
          nlinarith
        have hslice_within : ∀ p ∈ sliceHorz ⟨rect.x, rect.y, rect.w,
            sumTS (pickRow rect S c cs).1 / S * rect.h⟩
            (sumTS (pickRow rect S c cs).1) (pickRow rect S c cs).1 0,
            subRect p.2 ⟨rect.x, rect.y, rect.w,
              sumTS (pickRow rect S c cs).1 / S * rect.h⟩ :=
          sliceHorz_within ⟨rect.x, rect.y, rect.w,
              sumTS (pickRow rect S c cs).1 / S * rect.h⟩
            (sumTS (pickRow rect S c cs).1) hrs_pos hw.le ht_nonneg
            (pickRow rect S c cs).1 0 le_rfl
            (fun d hd => (hrow_pos d hd).le) hrowbound
        have hslice_pair : List.Pairwise (fun a b => rectDisjoint a.2 b.2)
            (sliceHorz ⟨rect.x, rect.y, rect.w,
              sumTS (pickRow rect S c cs).1 / S * rect.h⟩
              (sumTS (pickRow rect S c cs).1) (pickRow rect S c cs).1 0) :=
          sliceHorz_pairwise ⟨rect.x, rect.y, rect.w,
              sumTS (pickRow rect S c cs).1 / S * rect.h⟩
            (sumTS (pickRow rect S c cs).1) hrs_pos hw.le
            (pickRow rect S c cs).1 0 (fun d hd => (hrow_pos d hd).le)
        cases hrc : (pickRow rect S c cs).2 with
        | nil =>
          rw [hrc] at happ hsum
          rw [squarifyF_nil, List.append_nil]
          have hroweq : (pickRow rect S c cs).1 = c :: cs := by simpa using happ
          refine ⟨?_, ?_, ?_, ?_⟩
          · rw [sliceHorz_fst, hroweq]
          · rw [sliceHorz_area, hroweq]
            refine List.map_congr_left (fun d hd => ?_)
            simp only [Rect.area]
            rw [← hS, div_self hSne]
            ring
          · intro p hp
            exact subRect_trans (hslice_within p hp) hsubstrip
          · exact hslice_pair
        | cons r0 rest =>
          rw [hrc] at happ hsum hrest_pos hrest_nonneg hlen2
          have hrest_sum_pos : 0 < sumTS (r0 :: rest) :=
            sumTS_pos (by simp) hrest_pos
          have hrs_lt : sumTS (pickRow rect S c cs).1 < S := by linarith
          have hh2 : 0 < rect.h - sumTS (pickRow rect S c cs).1 / S * rect.h := by
            have h1 : sumTS (pickRow rect S c cs).1 / S < 1 :=
              (div_lt_one hS_pos).mpr hrs_lt
            nlinarith
          have hS2 : S - sumTS (pickRow rect S c cs).1 = sumTS (r0 :: rest) := by
            linarith
          have hS2ne : S - sumTS (pickRow rect S c cs).1 ≠ 0 := by
            rw [hS2]; exact ne_of_gt hrest_sum_pos
          have hsubrem : subRect ⟨rect.x, rect.y +
              sumTS (pickRow rect S c cs).1 / S * rect.h, rect.w,
              rect.h - sumTS (pickRow rect S c cs).1 / S * rect.h⟩ rect := by
            refine ⟨le_refl _, le_refl _, ?_, ?_⟩
            · simp only []
              linarith
            · simp only []
              linarith
          obtain ⟨ihf, iha, ihw2, ihp2⟩ := ih
            ⟨rect.x, rect.y + sumTS (pickRow rect S c cs).1 / S * rect.h,
              rect.w, rect.h - sumTS (pickRow rect S c cs).1 / S * rect.h⟩
            (S - sumTS (pickRow rect S c cs).1) (r0 :: rest)
            hlen2 hS2 hrest_pos hw hh2
          refine ⟨?_, ?_, ?_, ?_⟩
          · rw [List.map_append, sliceHorz_fst, ihf, ← List.map_append, happ]
          · rw [List.map_append, sliceHorz_area, iha]
            have e1 : (pickRow rect S c cs).1.map
                (fun d => d.size / sumTS (pickRow rect S c cs).1 *
                  Rect.area ⟨rect.x, rect.y, rect.w,
                    sumTS (pickRow rect S c cs).1 / S * rect.h⟩) =
                (pickRow rect S c cs).1.map
                  (fun d => d.size / S * rect.area) := by
              refine List.map_congr_left (fun d hd => ?_)
              simp only [Rect.area]
              field_simp
              ring
            have e2 : (r0 :: rest).map
                (fun d => d.size / (S - sumTS (pickRow rect S c cs).1) *
                  Rect.area ⟨rect.x, rect.y +
                    sumTS (pickRow rect S c cs).1 / S * rect.h, rect.w,
                    rect.h - sumTS (pickRow rect S c cs).1 / S * rect.h⟩) =
                (r0 :: rest).map (fun d => d.size / S * rect.area) := by
              refine List.map_congr_left (fun d hd => ?_)
              simp only [Rect.area]
              field_simp
              ring
            rw [e1, e2, ← List.map_append, happ]
          · intro p hp
            rcases List.mem_append.mp hp with h | h
            · exact subRect_trans (hslice_within p h) hsubstrip
            · exact subRect_trans (ihw2 p h) hsubrem
          · refine List.pairwise_append.mpr ⟨hslice_pair, ihp2, ?_⟩
            intro a ha b hb
            exact rectDisjoint_of_sep_y (hslice_within a ha) (ihw2 b hb)
              (le_of_eq rfl)

theorem pairwise_of_total {α : Type} {R : α → α → Prop} (h : ∀ a b, R a b) :
    ∀ l : List α, l.Pairwise R
  | [] => List.Pairwise.nil
  | a :: l => List.Pairwise.cons (fun b _ => h a b) (pairwise_of_total h l)

theorem sumTS_eq_zero {l : List TChild} (h : ∀ c ∈ l, c.size = 0) :
    sumTS l = 0 := by
  induction l with
  | nil => simp [sumTS]
  | cons c cs ih =>
    have : sumTS (c :: cs) = c.size + sumTS cs := by simp [sumTS]
    rw [this, h c (by simp), ih (fun d hd => h d (by simp [hd]))]
    ring

theorem zs_sizes (children : List TChild) (hnn : ∀ c ∈ children, 0 ≤ c.size) :
    ∀ c ∈ (sortDesc children).filter (fun c => !decide (0 < c.size)),
      c.size = 0 := by
  intro c hc
  rw [List.mem_filter] at hc
  have hmem : c ∈ children := (sortDesc_perm children).mem_iff.mp hc.1
  have h1 := hnn c hmem
  have h2 : ¬(0 < c.size) := by simpa using hc.2
  linarith

theorem pos_sizes (children : List TChild) :
    ∀ c ∈ (sortDesc children).filter (fun c => decide (0 < c.size)),
      0 < c.size := by
  intro c hc
  rw [List.mem_filter] at hc
  simpa using hc.2

theorem sumTS_pos_filter (children : List TChild)
    (hnn : ∀ c ∈ children, 0 ≤ c.size) :
    sumTS ((sortDesc children).filter (fun c => decide (0 < c.size))) =
      sumTS children := by
  have hperm := layoutOrder_perm children
  have h1 : sumTS (layoutOrder children) = sumTS children := sumTS_perm hperm
  rw [layoutOrder, sumTS_append] at h1
  have h2 : sumTS ((sortDesc children).filter
      (fun c => !decide (0 < c.size))) = 0 :=
    sumTS_eq_zero (zs_sizes children hnn)
  linarith

theorem sum_map_share (l : List TChild) (k : ℚ) :
    (l.map (fun c => c.size * k)).sum = sumTS l * k := by
  induction l with
  | nil => simp [sumTS]
  | cons c cs ih =>
    have h1 : sumTS (c :: cs) = c.size + sumTS cs := by simp [sumTS]
    simp only [List.map_cons, List.sum_cons, ih, h1]
    ring

/-- C3: for every rectangle with positive sides and every ordered child
sequence with nonnegative sizes summing to S > 0, `TreemapLayout` — a pure,
deterministic function — returns one rectangle per child whose areas sum to
exactly the input rectangle's area, each child's area being exactly its
proportional share `size / S` of the total area (ids aligned positionally
with the emitted order), such that no two rectangles overlap and every
rectangle lies within the input rectangle. -/
theorem C3_treemap_layout (children : List TChild) (rect : Rect)
    (hnn : ∀ c ∈ children, 0 ≤ c.size) (hS : 0 < sumTS children)
    (hw : 0 < rect.w) (hh : 0 < rect.h) :
    ((TreemapLayout children rect).map (fun p => p.2.area)).sum = rect.area ∧
      (TreemapLayout children rect).map Prod.fst =
        (layoutOrder children).map TChild.id ∧
      (TreemapLayout children rect).map (fun p => p.2.area) =
        (layoutOrder children).map
          (fun c => c.size / sumTS children * rect.area) ∧
      (∀ p ∈ TreemapLayout children rect, subRect p.2 rect) ∧
      List.Pairwise (fun a b => rectDisjoint a.2 b.2)
        (TreemapLayout children rect) := by
  have hSne : sumTS children ≠ 0 := ne_of_gt hS
  have hpos_eq := sumTS_pos_filter children hnn
  have hpos_mem := pos_sizes children
  have hzs := zs_sizes children hnn
  have hspec := squarifyF_spec
    ((sortDesc children).filter (fun c => decide (0 < c.size))).length rect
    (sumTS ((sortDesc children).filter (fun c => decide (0 < c.size))))
    ((sortDesc children).filter (fun c => decide (0 < c.size)))
    le_rfl rfl hpos_mem hw hh
  obtain ⟨sfst, sarea, swithin, spair⟩ := hspec
  have hzfst : (((sortDesc children).filter
        (fun c => !decide (0 < c.size))).map
        (fun c => (c.id, (⟨rect.x, rect.y, 0, 0⟩ : Rect)))).map Prod.fst =
      ((sortDesc children).filter
        (fun c => !decide (0 < c.size))).map TChild.id := by
    rw [List.map_map]; rfl
  have hzarea : (((sortDesc children).filter
        (fun c => !decide (0 < c.size))).map
        (fun c => (c.id, (⟨rect.x, rect.y, 0, 0⟩ : Rect)))).map
        (fun p => p.2.area) =
      ((sortDesc children).filter (fun c => !decide (0 < c.size))).map
        (fun c => c.size / sumTS children * rect.area) := by
    rw [List.map_map]
    refine List.map_congr_left (fun d hd => ?_)
    have h0 := hzs d hd
    simp [Function.comp, Rect.area, h0]
  have harea : (TreemapLayout children rect).map (fun p => p.2.area) =
      (layoutOrder children).map
        (fun c => c.size / sumTS children * rect.area) := by
    simp only [TreemapLayout, squarify, layoutOrder]
    rw [List.map_append, sarea, hpos_eq, List.map_append, hzarea]
  have hfst : (TreemapLayout children rect).map Prod.fst =
      (layoutOrder children).map TChild.id := by
    simp only [TreemapLayout, squarify, layoutOrder]
    rw [List.map_append, sfst, List.map_append, hzfst]
  have hperm_sum : sumTS (layoutOrder children) = sumTS children :=
    sumTS_perm (layoutOrder_perm children)
  refine ⟨?_, hfst, harea, ?_, ?_⟩
  · rw [harea]
    have e : (layoutOrder children).map
        (fun c => c.size / sumTS children * rect.area) =
        (layoutOrder children).map
          (fun c => c.size * (rect.area / sumTS children)) :=
      List.map_congr_left (fun d _ => by ring)
    rw [e, sum_map_share, hperm_sum]
    field_simp
  · intro p hp
    simp only [TreemapLayout, squarify] at hp
    rcases List.mem_append.mp hp with h | h
    · exact swithin p h
    · obtain ⟨c, hc, rfl⟩ := List.mem_map.mp h
      refine ⟨le_refl _, ?_, le_refl _, ?_⟩
      · simp only []
        linarith
      · simp only []
        linarith
  · simp only [TreemapLayout, squarify]
    refine List.pairwise_append.mpr ⟨spair, ?_, ?_⟩
    · refine List.pairwise_map.mpr (pairwise_of_total ?_ _)
      intro a b
      refine Or.inl ?_
      simp only []
      linarith
    · intro a ha b hb
      obtain ⟨c, hc, rfl⟩ := List.mem_map.mp hb
      have h1 := swithin a ha
      refine Or.inr (Or.inl ?_)
      simp only []
      linarith [h1.1]

/-- Concrete inputs used to instantiate the treemap theorem. -/
def sampleChildren : List TChild := [⟨0, 6⟩, ⟨1, 3⟩, ⟨2, 1⟩, ⟨3, 0⟩]

/-- A concrete 10 × 5 target rectangle. -/
def sampleRect : Rect := ⟨0, 0, 10, 5⟩

theorem C3_treemap_layout_witness :
    ((∀ c ∈ sampleChildren, 0 ≤ c.size) ∧ 0 < sumTS sampleChildren ∧
      0 < sampleRect.w ∧ 0 < sampleRect.h) ∧
    (((TreemapLayout sampleChildren sampleRect).map
          (fun p => p.2.area)).sum = sampleRect.area ∧
      (TreemapLayout sampleChildren sampleRect).map Prod.fst =
        (layoutOrder sampleChildren).map TChild.id ∧
      (TreemapLayout sampleChildren sampleRect).map (fun p => p.2.area) =
        (layoutOrder sampleChildren).map
          (fun c => c.size / sumTS sampleChildren * sampleRect.area) ∧
      (∀ p ∈ TreemapLayout sampleChildren sampleRect, subRect p.2 sampleRect) ∧
      List.Pairwise (fun a b => rectDisjoint a.2 b.2)
        (TreemapLayout sampleChildren sampleRect)) :=
  ⟨⟨by decide, by norm_num [sumTS, sampleChildren], by decide, by decide⟩,
    C3_treemap_layout sampleChildren sampleRect (by decide)
      (by norm_num [sumTS, sampleChildren]) (by decide) (by decide)⟩
